import Mathlib

/-!
Verification of the snapshot aggregation engine, retention store and
persistence layer of `server.py` (HyperDash Monitor backend).

The Python source is shallowly embedded:

* floating point monetary values are modelled as exact rationals (`ℚ`);
  Python's `round(x, n)` (round-half-to-even) becomes `pyRound` below;
* per-trader fetch results (`fetch_positions` plus the surrounding
  `try/except` of `take_snapshot`) become the `FetchResult` sum type:
  `ok` carries the parsed position list, `noData` models the
  `if not pos or "assetPositions" not in pos: continue` branch, and
  `err` models an exception caught by `except Exception: errors += 1`;
* the insertion-ordered Python `dict` `coin_data` becomes an ordered
  association list updated in place (`updateAgg`);
* `list.sort(key=..., reverse=True)` - a stable descending sort - is
  modelled by a stable insertion sort over the same key; a stable sort
  is extensionally unique, so this coincides with Python's Timsort;
* `json.dumps` / `json.loads` together with the data file become an
  explicit character-level printer and parser for the exact compact
  layout the code writes (`separators=(",", ":")`), with the file state
  as `FileState`;
* the crash behaviour of `Path.write_text` (open for writing truncates,
  then the data is written) is modelled by a two-step operation trace,
  and the two unsynchronised callers of `take_snapshot` (the cron thread
  and the HTTP handler) by an explicit interleaving semantics.
-/

namespace Surveil

/-- Python `round(x*10^n)/10^n` uses round-half-to-even; this is the
integer-valued half-to-even rounding. -/
def roundHE (q : ℚ) : ℤ :=
  let f := ⌊q⌋
  if q - f < 1/2 then f
  else if (1:ℚ)/2 < q - f then f + 1
  else if f % 2 = 0 then f else f + 1

/-- Python `round(q, n)` on the rational model. -/
def pyRound (n : ℕ) (q : ℚ) : ℚ := (roundHE (q * 10 ^ n) : ℚ) / 10 ^ n

/-- One entry of a trader's `assetPositions` list, with `szi` and
`positionValue` already converted by `float(...)`. -/
structure PositionRecord where
  coin : String
  szi : ℚ
  positionValue : ℚ
deriving DecidableEq

/-- Outcome of fetching one trader inside the loop of `take_snapshot`. -/
inductive FetchResult where
  /-- `fetch_positions` returned a dict with an `assetPositions` list. -/
  | ok (positions : List PositionRecord)
  /-- `not pos or "assetPositions" not in pos` - skipped, not loaded. -/
  | noData
  /-- an exception was raised - `errors += 1`, trader skipped. -/
  | err
deriving DecidableEq

/-- Value of `coin_data[coin]`: `{"lN": .., "sN": .., "lT": .., "sT": ..}`. -/
structure CoinAgg where
  lN : ℚ
  sN : ℚ
  lT : ℕ
  sT : ℕ
deriving DecidableEq

/-- `{"lN": 0.0, "sN": 0.0, "lT": 0, "sT": 0}` -/
def zeroAgg : CoinAgg := ⟨0, 0, 0, 0⟩

/-- In-place update of the insertion-ordered dict `coin_data`: an existing
key keeps its position, a new key is appended (Python dicts preserve
insertion order). -/
def updateAgg (l : List (String × CoinAgg)) (c : String) (f : CoinAgg → CoinAgg) :
    List (String × CoinAgg) :=
  match l with
  | [] => [(c, f zeroAgg)]
  | (k, v) :: rest => if k = c then (k, f v) :: rest else (k, v) :: updateAgg rest c f

/-- The local accumulators of `take_snapshot` touched by one position
record: `coin_data`, `total_long`, `total_short`. -/
structure CoreState where
  coinData : List (String × CoinAgg)
  totalLong : ℚ
  totalShort : ℚ
deriving DecidableEq

/-- The body of `for ap in pos["assetPositions"]` for one record `p`:
skip if `positionValue == 0`, otherwise add to the long side if
`szi > 0`, else to the short side. -/
def corePos (st : CoreState) (p : PositionRecord) : CoreState :=
  if p.positionValue = 0 then st
  else if 0 < p.szi then
    { coinData := updateAgg st.coinData p.coin
        (fun d => { d with lN := d.lN + p.positionValue, lT := d.lT + 1 })
      totalLong := st.totalLong + p.positionValue
      totalShort := st.totalShort }
  else
    { coinData := updateAgg st.coinData p.coin
        (fun d => { d with sN := d.sN + p.positionValue, sT := d.sT + 1 })
      totalLong := st.totalLong
      totalShort := st.totalShort + p.positionValue }

/-- All the local accumulators of `take_snapshot`. -/
structure AggState where
  core : CoreState
  loaded : ℕ
  errors : ℕ
deriving DecidableEq

def initAggState : AggState := ⟨⟨[], 0, 0⟩, 0, 0⟩

/-- One iteration of `for i, trader in enumerate(traders)`. -/
def processTrader (st : AggState) (r : FetchResult) : AggState :=
  match r with
  | .err => { st with errors := st.errors + 1 }
  | .noData => st
  | .ok ps => { core := ps.foldl corePos st.core, loaded := st.loaded + 1,
                errors := st.errors }

/-- The whole accumulation loop of `take_snapshot`. -/
def aggregate (rs : List FetchResult) : AggState :=
  rs.foldl processTrader initAggState

/-- One finalized element of the `coins` list. -/
structure CoinSummary where
  c : String
  r : ℚ
  t : ℚ
  lN : ℚ
  sN : ℚ
  lT : ℕ
  sT : ℕ
deriving DecidableEq

/-- The `for c, d in coin_data.items()` finalization loop: assets with a
zero combined total are skipped, the rest get a rounded ratio and
rounded notionals.  `coin_data.items()` iterates in insertion order. -/
def finalizeCoins (cd : List (String × CoinAgg)) : List CoinSummary :=
  cd.filterMap (fun cd' =>
    let tot := cd'.2.lN + cd'.2.sN
    if tot = 0 then none
    else some { c := cd'.1, r := pyRound 4 (cd'.2.lN / tot), t := pyRound 2 tot,
                lN := pyRound 2 cd'.2.lN, sN := pyRound 2 cd'.2.sN,
                lT := cd'.2.lT, sT := cd'.2.sT })

/-- Descending-by-`t` comparison used by
`coins.sort(key=lambda x: x["t"], reverse=True)`. -/
def coinGE (a b : CoinSummary) : Prop := b.t ≤ a.t

instance : DecidableRel coinGE := fun a b => inferInstanceAs (Decidable (b.t ≤ a.t))

/-- Python's `list.sort(key=..., reverse=True)` is a stable descending
sort; a stable sort is extensionally unique, so the stable insertion
sort of Mathlib with the `coinGE` relation computes the same list. -/
def sortCoins (l : List CoinSummary) : List CoinSummary :=
  List.insertionSort coinGE l

/-- The snapshot dict built at the end of `take_snapshot` (field order of
the Python dict literal). -/
structure Snapshot where
  ts : ℕ
  gR : ℚ
  tL : ℚ
  tS : ℚ
  traders : ℕ
  coins : List CoinSummary
deriving DecidableEq

/-- The pure aggregation part of `take_snapshot` (lines 73-133): the
wall-clock timestamp `int(time.time()*1000)` enters as the parameter
`now`, the per-trader fetch outcomes as `rs`. -/
def takeSnapshot (now : ℕ) (rs : List FetchResult) : Snapshot :=
  let st := aggregate rs
  let coins := sortCoins (finalizeCoins st.core.coinData)
  let total := st.core.totalLong + st.core.totalShort
  { ts := now
    gR := if 0 < total then pyRound 4 (st.core.totalLong / total) else 0
    tL := pyRound 2 st.core.totalLong
    tS := pyRound 2 st.core.totalShort
    traders := st.loaded
    coins := coins.take 60 }

/-- `MAX_SNAPS = 48` -/
def MAX_SNAPS : ℕ := 48

/-- `snaps.append(snap); if len(snaps) > m: snaps = snaps[-m:]`.
For `m > 0` the Python slice `snaps[-m:]` keeps the last `m` elements;
for `m = 0` it is `snaps[0:]`, the whole list. -/
def appendTrim (m : ℕ) (h : List Snapshot) (s : Snapshot) : List Snapshot :=
  let h' := h ++ [s]
  if m < h'.length then (if m = 0 then h' else h'.drop (h'.length - m)) else h'

/-! ### Specification-side views of an input batch

These functions restate, directly over the input batch, the quantities
the spec talks about: total long/short notional, per-asset notionals and
record counts, and distinct contributing traders.  The long/short side
of a record follows the convention the code establishes (C10):
long iff `szi > 0`, short otherwise. -/

/-- All position records of successfully fetched traders, in input order. -/
def okRecords (rs : List FetchResult) : List PositionRecord :=
  rs.flatMap (fun r => match r with | .ok ps => ps | _ => [])

/-- Is the record included (non-zero notional) and on the long side? -/
def isLongRec (p : PositionRecord) : Prop := p.positionValue ≠ 0 ∧ 0 < p.szi

/-- Is the record included (non-zero notional) and on the short side? -/
def isShortRec (p : PositionRecord) : Prop := p.positionValue ≠ 0 ∧ ¬ 0 < p.szi

instance : DecidablePred isLongRec :=
  fun p => inferInstanceAs (Decidable (p.positionValue ≠ 0 ∧ 0 < p.szi))
instance : DecidablePred isShortRec :=
  fun p => inferInstanceAs (Decidable (p.positionValue ≠ 0 ∧ ¬ 0 < p.szi))

/-- Summed notional of the included long-side records of a record list. -/
def recsSumLong (ps : List PositionRecord) : ℚ :=
  (ps.map (fun p => if isLongRec p then p.positionValue else 0)).sum

/-- Summed notional of the included short-side records of a record list. -/
def recsSumShort (ps : List PositionRecord) : ℚ :=
  (ps.map (fun p => if isShortRec p then p.positionValue else 0)).sum

/-- Summed notional of one asset's included long-side records. -/
def recsAssetLong (c : String) (ps : List PositionRecord) : ℚ :=
  (ps.map (fun p => if p.coin = c ∧ isLongRec p then p.positionValue else 0)).sum

/-- Summed notional of one asset's included short-side records. -/
def recsAssetShort (c : String) (ps : List PositionRecord) : ℚ :=
  (ps.map (fun p => if p.coin = c ∧ isShortRec p then p.positionValue else 0)).sum

/-- Number of one asset's included long-side records. -/
def recsAssetLongCnt (c : String) (ps : List PositionRecord) : ℕ :=
  (ps.filter (fun p => decide (p.coin = c ∧ isLongRec p))).length

/-- Number of one asset's included short-side records. -/
def recsAssetShortCnt (c : String) (ps : List PositionRecord) : ℕ :=
  (ps.filter (fun p => decide (p.coin = c ∧ isShortRec p))).length

/-- T_long: summed notional of all included long-side records. -/
def sumLong (rs : List FetchResult) : ℚ := recsSumLong (okRecords rs)

/-- T_short: summed notional of all included short-side records. -/
def sumShort (rs : List FetchResult) : ℚ := recsSumShort (okRecords rs)

/-- L for one asset: summed notional of its included long-side records. -/
def assetLong (rs : List FetchResult) (c : String) : ℚ :=
  recsAssetLong c (okRecords rs)

/-- S for one asset: summed notional of its included short-side records. -/
def assetShort (rs : List FetchResult) (c : String) : ℚ :=
  recsAssetShort c (okRecords rs)

/-- Number of included long-side records for one asset. -/
def assetLongRecords (rs : List FetchResult) (c : String) : ℕ :=
  recsAssetLongCnt c (okRecords rs)

/-- Number of included short-side records for one asset. -/
def assetShortRecords (rs : List FetchResult) (c : String) : ℕ :=
  recsAssetShortCnt c (okRecords rs)

/-- Number of distinct traders that contributed at least one included
long-side record for one asset (traders are the entries of the batch). -/
def distinctLongTraders (rs : List FetchResult) (c : String) : ℕ :=
  (rs.filter (fun r => match r with
    | .ok ps => ps.any (fun p => decide (p.coin = c ∧ isLongRec p))
    | _ => false)).length

/-- Number of successfully fetched traders in a batch (`loaded`). -/
def countOk (rs : List FetchResult) : ℕ :=
  (rs.filter (fun r => match r with | .ok _ => true | _ => false)).length

/-! ### Invariants of the accumulation loop -/

/-- Ordered-dict lookup on the association list. -/
def findAgg (c : String) : List (String × CoinAgg) → Option CoinAgg
  | [] => none
  | (k, v) :: rest => if k = c then some v else findAgg c rest

theorem findAgg_updateAgg (l : List (String × CoinAgg)) (c c' : String)
    (f : CoinAgg → CoinAgg) :
    findAgg c' (updateAgg l c f) =
      if c = c' then some (f ((findAgg c' l).getD zeroAgg)) else findAgg c' l := by
  induction l with
  | nil =>
    by_cases h : c = c' <;> simp [updateAgg, findAgg, h]
  | cons kv rest ih =>
    obtain ⟨k, v⟩ := kv
    by_cases hk : k = c
    · subst hk
      by_cases h : k = c' <;> simp [updateAgg, findAgg, h]
    · by_cases h : k = c'
      · subst h
        have hc : ¬ c = k := fun hc => hk hc.symm
        simp [updateAgg, findAgg, hk, hc]
      · simp [updateAgg, findAgg, hk, h, ih]

/-- The trader loop only ever touches `coin_data`, `total_long` and
`total_short` through the per-record step `corePos`, applied to the
concatenation of all successfully fetched position lists. -/
theorem foldl_processTrader_core (rs : List FetchResult) (st : AggState) :
    (rs.foldl processTrader st).core = (okRecords rs).foldl corePos st.core := by
  induction rs generalizing st with
  | nil => simp [okRecords]
  | cons r rs ih =>
    cases r with
    | ok ps => simp [okRecords, List.flatMap_cons, List.foldl_append, processTrader, ih]
    | noData => simpa [okRecords, List.flatMap_cons, processTrader] using ih _
    | err => simpa [okRecords, List.flatMap_cons, processTrader] using ih _

/-- `loaded` counts exactly the successfully fetched traders. -/
theorem foldl_processTrader_loaded (rs : List FetchResult) (st : AggState) :
    (rs.foldl processTrader st).loaded = st.loaded + countOk rs := by
  induction rs generalizing st with
  | nil => simp [countOk]
  | cons r rs ih =>
    cases r with
    | ok ps => simp [countOk, processTrader, ih, List.filter] at *; omega
    | noData => simpa [countOk, processTrader, List.filter] using ih st
    | err => simpa [countOk, processTrader, List.filter] using ih _

/-- Running totals after the record fold. -/
theorem foldl_corePos_totalLong (ps : List PositionRecord) (c : CoreState) :
    (ps.foldl corePos c).totalLong = c.totalLong + recsSumLong ps := by
  induction ps generalizing c with
  | nil => simp [recsSumLong]
  | cons p ps ih =>
    by_cases h0 : p.positionValue = 0
    · have : ¬ isLongRec p := fun h => h.1 h0
      simp [corePos, h0, ih, recsSumLong, this]
    · by_cases hsz : 0 < p.szi
      · have : isLongRec p := ⟨h0, hsz⟩
        simp [corePos, h0, hsz, ih, recsSumLong, this]
        ring
      · have : ¬ isLongRec p := fun h => hsz h.2
        simp [corePos, h0, hsz, ih, recsSumLong, this]

theorem foldl_corePos_totalShort (ps : List PositionRecord) (c : CoreState) :
    (ps.foldl corePos c).totalShort = c.totalShort + recsSumShort ps := by
  induction ps generalizing c with
  | nil => simp [recsSumShort]
  | cons p ps ih =>
    by_cases h0 : p.positionValue = 0
    · have : ¬ isShortRec p := fun h => h.1 h0
      simp [corePos, h0, ih, recsSumShort, this]
    · by_cases hsz : 0 < p.szi
      · have : ¬ isShortRec p := fun h => h.2 hsz
        simp [corePos, h0, hsz, ih, recsSumShort, this]
      · have : isShortRec p := ⟨h0, hsz⟩
        simp [corePos, h0, hsz, ih, recsSumShort, this]
        ring

theorem aggregate_totalLong (rs : List FetchResult) :
    (aggregate rs).core.totalLong = sumLong rs := by
  have h := foldl_corePos_totalLong (okRecords rs) initAggState.core
  rw [aggregate, foldl_processTrader_core, h]
  simp [initAggState, sumLong]

theorem aggregate_totalShort (rs : List FetchResult) :
    (aggregate rs).core.totalShort = sumShort rs := by
  have h := foldl_corePos_totalShort (okRecords rs) initAggState.core
  rw [aggregate, foldl_processTrader_core, h]
  simp [initAggState, sumShort]

theorem aggregate_loaded (rs : List FetchResult) :
    (aggregate rs).loaded = countOk rs := by
  have h := foldl_processTrader_loaded rs initAggState
  rw [aggregate, h]
  simp [initAggState]

/-- Projection of the record step onto a single asset key. -/
def keyStep (key : String) (o : Option CoinAgg) (p : PositionRecord) : Option CoinAgg :=
  if p.coin = key ∧ p.positionValue ≠ 0 then
    let d := o.getD zeroAgg
    some (if 0 < p.szi then
      { d with lN := d.lN + p.positionValue, lT := d.lT + 1 }
    else
      { d with sN := d.sN + p.positionValue, sT := d.sT + 1 })
  else o

/-- The dict entry of one asset evolves exactly by `keyStep`. -/
theorem findAgg_foldl_corePos (ps : List PositionRecord) (c : CoreState) (key : String) :
    findAgg key (ps.foldl corePos c).coinData =
      ps.foldl (keyStep key) (findAgg key c.coinData) := by
  induction ps generalizing c with
  | nil => rfl
  | cons p ps ih =>
    rw [List.foldl_cons, List.foldl_cons, ih]
    congr 1
    by_cases h0 : p.positionValue = 0
    · simp [corePos, keyStep, h0]
    · by_cases hsz : 0 < p.szi
      · by_cases hc : p.coin = key
        · simp [corePos, keyStep, h0, hsz, hc, findAgg_updateAgg]
        · have hc' : ¬ p.coin = key := hc
          simp [corePos, keyStep, h0, hsz, hc', findAgg_updateAgg]
      · by_cases hc : p.coin = key
        · simp [corePos, keyStep, h0, hsz, hc, findAgg_updateAgg]
        · have hc' : ¬ p.coin = key := hc
          simp [corePos, keyStep, h0, hsz, hc', findAgg_updateAgg]

theorem recsAssetLong_cons (key : String) (p : PositionRecord)
    (ps : List PositionRecord) :
    recsAssetLong key (p :: ps) =
      (if p.coin = key ∧ isLongRec p then p.positionValue else 0) +
        recsAssetLong key ps := by
  simp [recsAssetLong]

theorem recsAssetShort_cons (key : String) (p : PositionRecord)
    (ps : List PositionRecord) :
    recsAssetShort key (p :: ps) =
      (if p.coin = key ∧ isShortRec p then p.positionValue else 0) +
        recsAssetShort key ps := by
  simp [recsAssetShort]

theorem recsAssetLongCnt_cons (key : String) (p : PositionRecord)
    (ps : List PositionRecord) :
    recsAssetLongCnt key (p :: ps) =
      (if p.coin = key ∧ isLongRec p then 1 else 0) + recsAssetLongCnt key ps := by
  by_cases h : p.coin = key ∧ isLongRec p <;>
    simp [recsAssetLongCnt, List.filter_cons, h] <;> omega

theorem recsAssetShortCnt_cons (key : String) (p : PositionRecord)
    (ps : List PositionRecord) :
    recsAssetShortCnt key (p :: ps) =
      (if p.coin = key ∧ isShortRec p then 1 else 0) + recsAssetShortCnt key ps := by
  by_cases h : p.coin = key ∧ isShortRec p <;>
    simp [recsAssetShortCnt, List.filter_cons, h] <;> omega

/-- Field-wise value of the per-asset fold: the accumulated entry holds
exactly the per-asset notional sums and record counts. -/
theorem foldl_keyStep_getD (key : String) (ps : List PositionRecord)
    (o : Option CoinAgg) :
    (ps.foldl (keyStep key) o).getD zeroAgg =
      { lN := (o.getD zeroAgg).lN + recsAssetLong key ps,
        sN := (o.getD zeroAgg).sN + recsAssetShort key ps,
        lT := (o.getD zeroAgg).lT + recsAssetLongCnt key ps,
        sT := (o.getD zeroAgg).sT + recsAssetShortCnt key ps } := by
  induction ps generalizing o with
  | nil => simp [recsAssetLong, recsAssetShort, recsAssetLongCnt, recsAssetShortCnt]
  | cons p ps ih =>
    rw [List.foldl_cons, ih, recsAssetLong_cons, recsAssetShort_cons,
      recsAssetLongCnt_cons, recsAssetShortCnt_cons]
    by_cases hrel : p.coin = key ∧ p.positionValue ≠ 0
    · by_cases hsz : 0 < p.szi
      · have hL : p.coin = key ∧ isLongRec p := ⟨hrel.1, hrel.2, hsz⟩
        have hS : ¬ (p.coin = key ∧ isShortRec p) := fun h => h.2.2 hsz
        simp only [keyStep, if_pos hrel, if_pos hsz, Option.getD_some, if_pos hL,
          if_neg hS, CoinAgg.mk.injEq]
        refine ⟨by ring, by ring, by omega, by omega⟩
      · have hL : ¬ (p.coin = key ∧ isLongRec p) := fun h => hsz h.2.2
        have hS : p.coin = key ∧ isShortRec p := ⟨hrel.1, hrel.2, hsz⟩
        simp only [keyStep, if_pos hrel, if_neg hsz, Option.getD_some, if_neg hL,
          if_pos hS, CoinAgg.mk.injEq]
        refine ⟨by ring, by ring, by omega, by omega⟩
    · have hL : ¬ (p.coin = key ∧ isLongRec p) := by
        rintro ⟨h1, h2, _⟩; exact hrel ⟨h1, h2⟩
      have hS : ¬ (p.coin = key ∧ isShortRec p) := by
        rintro ⟨h1, h2, _⟩; exact hrel ⟨h1, h2⟩
      simp only [keyStep, if_neg hrel, if_neg hL, if_neg hS, CoinAgg.mk.injEq]
      refine ⟨by ring, by ring, by omega, by omega⟩

/-- Keys of the ordered dict. -/
def dictKeys (l : List (String × CoinAgg)) : List String := l.map Prod.fst

theorem dictKeys_updateAgg (l : List (String × CoinAgg)) (c : String)
    (f : CoinAgg → CoinAgg) :
    dictKeys (updateAgg l c f) =
      if c ∈ dictKeys l then dictKeys l else dictKeys l ++ [c] := by
  induction l with
  | nil => simp [updateAgg, dictKeys]
  | cons kv rest ih =>
    obtain ⟨k, v⟩ := kv
    by_cases hk : k = c
    · subst hk
      simp [updateAgg, dictKeys]
    · have hck : ¬ c = k := fun h => hk h.symm
      have step : dictKeys ((k, v) :: updateAgg rest c f) =
          k :: dictKeys (updateAgg rest c f) := rfl
      by_cases hmem : c ∈ dictKeys rest
      · rw [show updateAgg ((k, v) :: rest) c f = (k, v) :: updateAgg rest c f by
          simp [updateAgg, hk], step, ih, if_pos hmem,
          if_pos (show c ∈ dictKeys ((k, v) :: rest) from List.mem_cons.mpr
            (Or.inr hmem))]
        rfl
      · have hnotmem : ¬ c ∈ dictKeys ((k, v) :: rest) := by
          intro hc
          rcases List.mem_cons.mp hc with h | h
          · exact hck h
          · exact hmem h
        rw [show updateAgg ((k, v) :: rest) c f = (k, v) :: updateAgg rest c f by
          simp [updateAgg, hk], step, ih, if_neg hmem, if_neg hnotmem]
        rfl

theorem nodup_dictKeys_updateAgg (l : List (String × CoinAgg)) (c : String)
    (f : CoinAgg → CoinAgg) (h : (dictKeys l).Nodup) :
    (dictKeys (updateAgg l c f)).Nodup := by
  rw [dictKeys_updateAgg]
  by_cases hmem : c ∈ dictKeys l
  · simpa [hmem] using h
  · simpa [hmem] using List.Nodup.append h (List.nodup_singleton c)
      (by simpa using hmem)

theorem nodup_dictKeys_foldl_corePos (ps : List PositionRecord) (c : CoreState)
    (h : (dictKeys c.coinData).Nodup) :
    (dictKeys (ps.foldl corePos c).coinData).Nodup := by
  induction ps generalizing c with
  | nil => exact h
  | cons p ps ih =>
    rw [List.foldl_cons]
    apply ih
    by_cases h0 : p.positionValue = 0
    · simpa [corePos, h0] using h
    · by_cases hsz : 0 < p.szi
      · simpa [corePos, h0, hsz] using nodup_dictKeys_updateAgg _ _ _ h
      · simpa [corePos, h0, hsz] using nodup_dictKeys_updateAgg _ _ _ h

/-- With distinct keys, a dict entry is recovered by lookup. -/
theorem findAgg_of_mem (l : List (String × CoinAgg)) (k : String) (d : CoinAgg)
    (hmem : (k, d) ∈ l) (hnd : (dictKeys l).Nodup) : findAgg k l = some d := by
  induction l with
  | nil => cases hmem
  | cons kv rest ih =>
    obtain ⟨k', v'⟩ := kv
    rcases List.mem_cons.mp hmem with heq | htl
    · obtain ⟨h1, h2⟩ := Prod.mk.injEq .. ▸ heq
      simp [findAgg, h1.symm, h2]
    · by_cases hk : k' = k
      · exfalso
        subst hk
        have : k' ∈ dictKeys rest := List.mem_map.mpr ⟨(k', d), htl, rfl⟩
        exact (List.nodup_cons.mp hnd).1 this
      · have := ih htl (List.nodup_cons.mp (by simpa [dictKeys] using hnd)).2
        simpa [findAgg, hk] using this

/-! ### The stable descending sort -/

instance : IsTotal CoinSummary coinGE := ⟨fun a b => le_total b.t a.t⟩

instance : IsTrans CoinSummary coinGE := ⟨fun _ _ _ h1 h2 => le_trans h2 h1⟩

theorem sortCoins_sorted (l : List CoinSummary) : (sortCoins l).Sorted coinGE :=
  List.sorted_insertionSort coinGE l

theorem sortCoins_perm (l : List CoinSummary) : (sortCoins l).Perm l :=
  List.perm_insertionSort coinGE l

/-- Stability of the sort: records with any fixed key value keep their
relative order (this pins the sorted list down uniquely, so the model
agrees with Python's stable `list.sort`). -/
theorem sortCoins_filter_key (k : ℚ) (l : List CoinSummary) :
    (sortCoins l).filter (fun x => decide (x.t = k)) =
      l.filter (fun x => decide (x.t = k)) := by
  induction l with
  | nil => rfl
  | cons a l ih =>
    have hins : sortCoins (a :: l) = List.orderedInsert coinGE a (sortCoins l) := rfl
    rw [hins, List.orderedInsert_eq_take_drop, List.filter_append]
    have hTD : ((sortCoins l).takeWhile (fun b => decide ¬ coinGE a b)).filter
          (fun x => decide (x.t = k)) ++
        ((sortCoins l).dropWhile (fun b => decide ¬ coinGE a b)).filter
          (fun x => decide (x.t = k)) =
        (sortCoins l).filter (fun x => decide (x.t = k)) := by
      rw [← List.filter_append, List.takeWhile_append_dropWhile]
    by_cases hk : a.t = k
    · have hT : ((sortCoins l).takeWhile (fun b => decide ¬ coinGE a b)).filter
          (fun x => decide (x.t = k)) = [] := by
        rw [List.filter_eq_nil_iff]
        intro b hb
        have hnb := List.mem_takeWhile_imp hb
        have hlt : ¬ b.t ≤ a.t := by simpa [coinGE] using hnb
        simp only [decide_eq_true_eq]
        intro hbk
        exact hlt (le_of_eq (hbk.trans hk.symm))
      rw [hT, List.nil_append] at hTD
      rw [hT, List.nil_append, List.filter_cons_of_pos (by simpa using hk),
        List.filter_cons_of_pos (by simpa using hk), hTD, ih]
    · rw [List.filter_cons_of_neg (by simpa using hk),
        List.filter_cons_of_neg (by simpa using hk), hTD, ih]

/-! ### Retention -/

/-- One append keeps the history within the bound. -/
theorem appendTrim_length_le (m : ℕ) (hm : 0 < m) (h : List Snapshot)
    (s : Snapshot) : (appendTrim m h s).length ≤ m := by
  unfold appendTrim
  by_cases hlen : m < (h ++ [s]).length
  · have hm0 : m ≠ 0 := Nat.pos_iff_ne_zero.mp hm
    simp only [if_pos hlen, if_neg hm0, List.length_drop]
    omega
  · simp only [if_neg hlen]
    omega

/-- Repeated appends from the empty history keep exactly the most recent
`m` snapshots, oldest first. -/
theorem foldl_appendTrim (m : ℕ) (hm : 0 < m) (L : List Snapshot) :
    L.foldl (appendTrim m) [] = L.drop (L.length - m) := by
  induction L using List.reverseRecOn with
  | nil => simp
  | append_singleton L s ih =>
    rw [List.foldl_append, List.foldl_cons, List.foldl_nil, ih]
    have hm0 : m ≠ 0 := Nat.pos_iff_ne_zero.mp hm
    by_cases hcase : L.length < m
    · have h1 : L.length - m = 0 := by omega
      unfold appendTrim
      have h2 : ¬ m < (L.drop 0 ++ [s]).length := by
        simp only [List.drop_zero, List.length_append, List.length_singleton]
        omega
      rw [h1, if_neg (by simpa [h1] using h2)]
      have h3 : (L ++ [s]).length - m = 0 := by
        simp only [List.length_append, List.length_singleton]
        omega
      rw [h3, List.drop_zero, List.drop_zero]
    · push_neg at hcase
      have hlenr : (L.drop (L.length - m)).length = m := by
        rw [List.length_drop]
        omega
      unfold appendTrim
      have hcond : m < (L.drop (L.length - m) ++ [s]).length := by
        simp only [List.length_append, List.length_singleton, hlenr]
        omega
      rw [if_pos hcond, if_neg hm0]
      have hd1 : (L.drop (L.length - m) ++ [s]).length - m = 1 := by
        simp only [List.length_append, List.length_singleton, hlenr]
        omega
      rw [hd1]
      have hstep : List.drop 1 (L.drop (L.length - m) ++ [s]) =
          L.drop (L.length + 1 - m) ++ [s] := by
        rw [List.drop_append_eq_append_drop, List.drop_drop, hlenr]
        have : 1 - m = 0 := by omega
        rw [this, List.drop_zero]
        congr 2
        omega
      rw [hstep, List.drop_append_eq_append_drop]
      have : (L ++ [s]).length - m = L.length + 1 - m := by
        simp only [List.length_append, List.length_singleton]
      rw [this]
      have hle : L.length + 1 - m ≤ L.length := by omega
      have : L.length + 1 - m - L.length = 0 := by omega
      rw [this, List.drop_zero]

/-! ### Batch isolation -/

theorem okRecords_append (xs ys : List FetchResult) :
    okRecords (xs ++ ys) = okRecords xs ++ okRecords ys := by
  simp [okRecords]

theorem countOk_append (xs ys : List FetchResult) :
    countOk (xs ++ ys) = countOk xs + countOk ys := by
  simp [countOk]

/-- Dropping a failed trader from the batch does not change the produced
snapshot at all (with the timestamp parameter held fixed): the totals,
every per-asset statistic and the `traders` count are identical. -/
theorem takeSnapshot_err_skip (now : ℕ) (xs ys : List FetchResult) :
    takeSnapshot now (xs ++ FetchResult.err :: ys) = takeSnapshot now (xs ++ ys) := by
  have hok : okRecords (xs ++ FetchResult.err :: ys) = okRecords (xs ++ ys) := by
    simp [okRecords]
  have hcore : (aggregate (xs ++ FetchResult.err :: ys)).core =
      (aggregate (xs ++ ys)).core := by
    rw [aggregate, aggregate, foldl_processTrader_core, foldl_processTrader_core, hok]
  have hcnt : countOk (xs ++ FetchResult.err :: ys) = countOk (xs ++ ys) := by
    simp [countOk, List.filter_append]
  have hloaded : (aggregate (xs ++ FetchResult.err :: ys)).loaded =
      (aggregate (xs ++ ys)).loaded := by
    rw [aggregate_loaded, aggregate_loaded, hcnt]
  simp only [takeSnapshot, hcore, hloaded]

/-! ### Persistence: the exact byte layout written by `save_snapshots`

`save_snapshots` writes `json.dumps(snaps, separators=(",", ":"))` - a
compact JSON document with no whitespace and the dict keys in insertion
order (`ts,gR,tL,tS,traders,coins` and `c,r,t,lN,sN,lT,sT`).  The
printer below produces that exact character sequence (rationals are
printed with a fixed number of decimals, which `json.loads` reads back
to the same value), and the parser reads it back.  `load_snapshots`
parses the whole file or falls back to the empty history. -/

/-- `'{'` (written via its code point). -/
def lbr : Char := '\x7b'

/-- `'}'` (written via its code point). -/
def rbr : Char := '\x7d'

/-- Characters of a string literal. -/
def lit (s : String) : List Char := s.data

/-- The decimal digit character for `d < 10`. -/
def digitCh (d : ℕ) : Char := Char.ofNat (48 + d)

/-- Decimal digits of a natural number, most significant first. -/
def natChars (n : ℕ) : List Char :=
  if n = 0 then ['0'] else ((Nat.digits 10 n).reverse.map digitCh)

/-- `m` printed left-padded with zeros to (at least) `e` digits. -/
def padNat (e m : ℕ) : List Char :=
  List.replicate (e - (natChars m).length) '0' ++ natChars m

/-- A nonnegative rational with denominator dividing `10^e`, printed
with exactly `e` decimal places. -/
def ratChars (e : ℕ) (q : ℚ) : List Char :=
  natChars ((q * 10 ^ e).num.toNat / 10 ^ e) ++
    '.' :: padNat e ((q * 10 ^ e).num.toNat % 10 ^ e)

/-- A JSON string (asset symbols need no escaping). -/
def strChars (s : String) : List Char := '"' :: s.data ++ ['"']

/-- Comma-separated concatenation, as `json.dumps` emits list elements. -/
def joinComma : List (List Char) → List Char
  | [] => []
  | [x] => x
  | x :: y :: ys => x ++ ',' :: joinComma (y :: ys)

def coinLit1 : List Char := lbr :: lit "\"c\":"
def coinLit2 : List Char := lit ",\"r\":"
def coinLit3 : List Char := lit ",\"t\":"
def coinLit4 : List Char := lit ",\"lN\":"
def coinLit5 : List Char := lit ",\"sN\":"
def coinLit6 : List Char := lit ",\"lT\":"
def coinLit7 : List Char := lit ",\"sT\":"

/-- One element of the `coins` array, exactly as dumped. -/
def printCoin (co : CoinSummary) : List Char :=
  coinLit1 ++ strChars co.c ++ coinLit2 ++ ratChars 4 co.r ++ coinLit3 ++
    ratChars 2 co.t ++ coinLit4 ++ ratChars 2 co.lN ++ coinLit5 ++
    ratChars 2 co.sN ++ coinLit6 ++ natChars co.lT ++ coinLit7 ++
    natChars co.sT ++ [rbr]

/-- The `coins` array. -/
def printCoins (l : List CoinSummary) : List Char :=
  '[' :: joinComma (l.map printCoin) ++ [']']

def snapLit1 : List Char := lbr :: lit "\"ts\":"
def snapLit2 : List Char := lit ",\"gR\":"
def snapLit3 : List Char := lit ",\"tL\":"
def snapLit4 : List Char := lit ",\"tS\":"
def snapLit5 : List Char := lit ",\"traders\":"
def snapLit6 : List Char := lit ",\"coins\":"

/-- One snapshot dict, exactly as dumped. -/
def printSnap (s : Snapshot) : List Char :=
  snapLit1 ++ natChars s.ts ++ snapLit2 ++ ratChars 4 s.gR ++ snapLit3 ++
    ratChars 2 s.tL ++ snapLit4 ++ ratChars 2 s.tS ++ snapLit5 ++
    natChars s.traders ++ snapLit6 ++ printCoins s.coins ++ [rbr]

/-- The whole document `json.dumps(snaps, separators=(",", ":"))`. -/
def printHistory (hs : List Snapshot) : List Char :=
  '[' :: joinComma (hs.map printSnap) ++ [']']

/-! #### The parser (the `json.loads` side, specialised to this layout) -/

def isDigitC (c : Char) : Bool := 48 ≤ c.toNat && c.toNat ≤ 57

def digitVal (c : Char) : ℕ := c.toNat - 48

def digitsVal (ds : List Char) : ℕ := ds.foldl (fun a c => 10 * a + digitVal c) 0

def parseNat (cs : List Char) : Option (ℕ × List Char) :=
  let ds := cs.takeWhile isDigitC
  if ds.isEmpty then none else some (digitsVal ds, cs.dropWhile isDigitC)

def parseRat (cs : List Char) : Option (ℚ × List Char) :=
  (parseNat cs).bind fun pa =>
  match pa.2 with
  | c :: cs₂ =>
    if c = '.' then
      let ds := cs₂.takeWhile isDigitC
      if ds.isEmpty then none
      else some ((pa.1 : ℚ) + (digitsVal ds : ℚ) / 10 ^ ds.length,
        cs₂.dropWhile isDigitC)
    else none
  | [] => none

def parseStr (cs : List Char) : Option (String × List Char) :=
  match cs with
  | c :: cs₁ =>
    if c = '"' then
      match cs₁.dropWhile (fun c' => c' != '"') with
      | c₂ :: cs₂ =>
        if c₂ = '"' then some (String.mk (cs₁.takeWhile (fun c' => c' != '"')), cs₂)
        else none
      | [] => none
    else none
  | [] => none

/-- Consume an exact literal character sequence. -/
def dropLit : List Char → List Char → Option (List Char)
  | [], cs => some cs
  | l :: ls, c :: cs => if c = l then dropLit ls cs else none
  | _ :: _, [] => none

def parseCoin (cs : List Char) : Option (CoinSummary × List Char) :=
  (dropLit coinLit1 cs).bind fun cs =>
  (parseStr cs).bind fun pc =>
  (dropLit coinLit2 pc.2).bind fun cs =>
  (parseRat cs).bind fun pr =>
  (dropLit coinLit3 pr.2).bind fun cs =>
  (parseRat cs).bind fun pt =>
  (dropLit coinLit4 pt.2).bind fun cs =>
  (parseRat cs).bind fun plN =>
  (dropLit coinLit5 plN.2).bind fun cs =>
  (parseRat cs).bind fun psN =>
  (dropLit coinLit6 psN.2).bind fun cs =>
  (parseNat cs).bind fun plT =>
  (dropLit coinLit7 plT.2).bind fun cs =>
  (parseNat cs).bind fun psT =>
  (dropLit [rbr] psT.2).map fun cs =>
  (⟨pc.1, pr.1, pt.1, plN.1, psN.1, plT.1, psT.1⟩, cs)

def parseCoins (fuel : ℕ) (cs : List Char) : Option (List CoinSummary × List Char) :=
  match fuel with
  | 0 => none
  | fuel + 1 =>
    (parseCoin cs).bind fun pc =>
    match pc.2 with
    | c :: cs₂ =>
      if c = ',' then (parseCoins fuel cs₂).map fun pl => (pc.1 :: pl.1, pl.2)
      else some ([pc.1], c :: cs₂)
    | [] => some ([pc.1], [])

def parseCoinList (cs : List Char) : Option (List CoinSummary × List Char) :=
  (dropLit ['['] cs).bind fun cs₁ =>
  if cs₁.head? = some ']' then some ([], cs₁.tail)
  else
    (parseCoins (cs₁.length + 1) cs₁).bind fun pl =>
    (dropLit [']'] pl.2).map fun cs₂ => (pl.1, cs₂)

def parseSnap (cs : List Char) : Option (Snapshot × List Char) :=
  (dropLit snapLit1 cs).bind fun cs =>
  (parseNat cs).bind fun pts =>
  (dropLit snapLit2 pts.2).bind fun cs =>
  (parseRat cs).bind fun pgR =>
  (dropLit snapLit3 pgR.2).bind fun cs =>
  (parseRat cs).bind fun ptL =>
  (dropLit snapLit4 ptL.2).bind fun cs =>
  (parseRat cs).bind fun ptS =>
  (dropLit snapLit5 ptS.2).bind fun cs =>
  (parseNat cs).bind fun ptr =>
  (dropLit snapLit6 ptr.2).bind fun cs =>
  (parseCoinList cs).bind fun pcs =>
  (dropLit [rbr] pcs.2).map fun cs =>
  (⟨pts.1, pgR.1, ptL.1, ptS.1, ptr.1, pcs.1⟩, cs)

def parseSnaps (fuel : ℕ) (cs : List Char) : Option (List Snapshot × List Char) :=
  match fuel with
  | 0 => none
  | fuel + 1 =>
    (parseSnap cs).bind fun ps =>
    match ps.2 with
    | c :: cs₂ =>
      if c = ',' then (parseSnaps fuel cs₂).map fun pl => (ps.1 :: pl.1, pl.2)
      else some ([ps.1], c :: cs₂)
    | [] => some ([ps.1], [])

/-- Parse a whole persisted document (the entire file must be consumed,
as `json.loads` requires). -/
def parseHistory (cs : List Char) : Option (List Snapshot) :=
  (dropLit ['['] cs).bind fun cs₁ =>
  if cs₁.head? = some ']' then (if cs₁.tail.isEmpty then some [] else none)
  else
    (parseSnaps (cs₁.length + 1) cs₁).bind fun pl =>
    (dropLit [']'] pl.2).bind fun cs₂ =>
    if cs₂.isEmpty then some pl.1 else none

/-- The persisted data file: `DATA_FILE` either does not exist or holds
some text. -/
inductive FileState where
  | missing
  | content (s : String)
deriving DecidableEq

/-- `load_snapshots`: return the parsed file contents; on a missing file
or a parse failure return the empty history. -/
def loadSnapshots : FileState → List Snapshot
  | .missing => []
  | .content s => (parseHistory s.data).getD []

/-- `save_snapshots`: replace whatever the file held before with the
serialized history. -/
def saveSnapshots (snaps : List Snapshot) (_fs : FileState) : FileState :=
  .content (String.mk (printHistory snaps))

/-! #### Validity: what `take_snapshot` actually stores

Asset symbols never contain quotes, backslashes or control characters
(else `json.dumps` would escape them), and every stored numeric field is
a nonnegative fixed-point decimal (2 decimal places for notionals, 4 for
ratios, integers for counts and the timestamp). -/

def decE (e : ℕ) (q : ℚ) : Prop := ∃ n : ℕ, q * 10 ^ e = (n : ℚ)

def validStr (s : String) : Prop :=
  ∀ c ∈ s.data, ¬ c = '"' ∧ ¬ c = '\\' ∧ 32 ≤ c.toNat

def validCoin (co : CoinSummary) : Prop :=
  validStr co.c ∧ decE 4 co.r ∧ decE 2 co.t ∧ decE 2 co.lN ∧ decE 2 co.sN

def validSnap (s : Snapshot) : Prop :=
  decE 4 s.gR ∧ decE 2 s.tL ∧ decE 2 s.tS ∧ ∀ co ∈ s.coins, validCoin co

def validHistory (H : List Snapshot) : Prop := ∀ s ∈ H, validSnap s

/-! #### Round-trip lemmas: characters and numerals -/

/-- `r` does not begin with a character satisfying `p`. -/
def headNot (p : Char → Bool) (r : List Char) : Prop :=
  ∀ c, r.head? = some c → p c = false

theorem headNot_cons (p : Char → Bool) (c : Char) (t : List Char)
    (h : p c = false) : headNot p (c :: t) := by
  intro c' h'
  simp only [List.head?_cons, Option.some.injEq] at h'
  rw [← h']
  exact h

theorem headNot_append_of_head (p : Char → Bool) (l r : List Char) (c : Char)
    (hc : l.head? = some c) (hp : p c = false) : headNot p (l ++ r) := by
  cases l with
  | nil => cases hc
  | cons a t =>
    simp only [List.head?_cons, Option.some.injEq] at hc
    subst hc
    exact headNot_cons p a (t ++ r) hp

theorem takeWhile_append_all (p : Char → Bool) (l r : List Char)
    (hl : ∀ c ∈ l, p c = true) (hr : headNot p r) :
    (l ++ r).takeWhile p = l := by
  induction l with
  | nil =>
    cases r with
    | nil => rfl
    | cons c t =>
      simp [List.takeWhile_cons, hr c rfl]
  | cons a t ih =>
    have ha := hl a (List.mem_cons_self a t)
    simp only [List.cons_append, List.takeWhile_cons, ha, if_true]
    rw [ih (fun c hc => hl c (List.mem_cons_of_mem a hc))]

theorem dropWhile_append_all (p : Char → Bool) (l r : List Char)
    (hl : ∀ c ∈ l, p c = true) (hr : headNot p r) :
    (l ++ r).dropWhile p = r := by
  induction l with
  | nil =>
    cases r with
    | nil => rfl
    | cons c t =>
      simp [List.dropWhile_cons, hr c rfl]
  | cons a t ih =>
    have ha := hl a (List.mem_cons_self a t)
    simp only [List.cons_append, List.dropWhile_cons, ha, if_true]
    exact ih (fun c hc => hl c (List.mem_cons_of_mem a hc))

theorem isDigitC_digitCh (d : ℕ) (h : d < 10) : isDigitC (digitCh d) = true := by
  interval_cases d <;> decide

theorem digitVal_digitCh (d : ℕ) (h : d < 10) : digitVal (digitCh d) = d := by
  interval_cases d <;> decide

theorem natChars_digits (n : ℕ) : ∀ c ∈ natChars n, isDigitC c = true := by
  intro c hc
  unfold natChars at hc
  by_cases h0 : n = 0
  · simp only [h0, if_true, List.mem_singleton] at hc
    subst hc
    decide
  · simp only [h0, if_false, List.mem_map, List.mem_reverse] at hc
    obtain ⟨d, hd, rfl⟩ := hc
    exact isDigitC_digitCh d (Nat.digits_lt_base (by norm_num) hd)

theorem natChars_ne_nil (n : ℕ) : natChars n ≠ [] := by
  unfold natChars
  by_cases h0 : n = 0
  · simp [h0]
  · simp only [h0, if_false, ne_eq, List.map_eq_nil_iff, List.reverse_eq_nil_iff]
    exact Nat.digits_ne_nil_iff_ne_zero.mpr h0

theorem digitsVal_mapDigits (m : ℕ) :
    digitsVal (((Nat.digits 10 m).reverse).map digitCh) = m := by
  induction m using Nat.strong_induction_on with
  | _ m ih =>
    by_cases h0 : m = 0
    · simp [h0, digitsVal]
    · rw [Nat.digits_def' (by norm_num : (1:ℕ) < 10) (Nat.pos_of_ne_zero h0)]
      rw [List.reverse_cons, List.map_append]
      unfold digitsVal
      rw [List.foldl_append]
      have hrec := ih (m / 10) (Nat.div_lt_self (Nat.pos_of_ne_zero h0) (by norm_num))
      unfold digitsVal at hrec
      rw [hrec]
      simp only [List.map_cons, List.map_nil, List.foldl_cons, List.foldl_nil]
      rw [digitVal_digitCh (m % 10) (Nat.mod_lt m (by norm_num))]
      exact Nat.div_add_mod m 10

theorem digitsVal_natChars (n : ℕ) : digitsVal (natChars n) = n := by
  unfold natChars
  by_cases h0 : n = 0
  · simp [h0, digitsVal, digitVal]
  · rw [if_neg h0]
    exact digitsVal_mapDigits n

theorem parseNat_append (n : ℕ) (r : List Char) (hr : headNot isDigitC r) :
    parseNat (natChars n ++ r) = some (n, r) := by
  unfold parseNat
  rw [takeWhile_append_all isDigitC (natChars n) r (natChars_digits n) hr,
    dropWhile_append_all isDigitC (natChars n) r (natChars_digits n) hr]
  simp [List.isEmpty_iff, natChars_ne_nil n, digitsVal_natChars]

theorem natChars_length_le (e m : ℕ) (he : 0 < e) (h : m < 10 ^ e) :
    (natChars m).length ≤ e := by
  unfold natChars
  by_cases h0 : m = 0
  · simpa [h0] using he
  · rw [if_neg h0, List.length_map, List.length_reverse,
      Nat.digits_len 10 m (by norm_num) h0]
    have := Nat.log_lt_of_lt_pow h0 h
    omega

theorem padNat_digits (e m : ℕ) : ∀ c ∈ padNat e m, isDigitC c = true := by
  intro c hc
  unfold padNat at hc
  rcases List.mem_append.mp hc with h | h
  · rw [List.eq_of_mem_replicate h]
    decide
  · exact natChars_digits m c h

theorem padNat_ne_nil (e m : ℕ) : padNat e m ≠ [] := by
  unfold padNat
  intro h
  exact natChars_ne_nil m (List.append_eq_nil.mp h).2

theorem padNat_length (e m : ℕ) (he : 0 < e) (h : m < 10 ^ e) :
    (padNat e m).length = e := by
  unfold padNat
  rw [List.length_append, List.length_replicate]
  have := natChars_length_le e m he h
  omega

theorem digitsVal_replicate_zero (k : ℕ) :
    List.foldl (fun a c => 10 * a + digitVal c) 0 (List.replicate k '0') = 0 := by
  induction k with
  | zero => rfl
  | succ k ih =>
    rw [List.replicate_succ, List.foldl_cons]
    have : (10 : ℕ) * 0 + digitVal '0' = 0 := by decide
    rw [this, ih]

theorem digitsVal_padNat (e m : ℕ) : digitsVal (padNat e m) = m := by
  unfold padNat digitsVal
  rw [List.foldl_append, digitsVal_replicate_zero]
  exact digitsVal_natChars m

theorem ratVal_eq (e n : ℕ) :
    ((n / 10 ^ e : ℕ) : ℚ) + ((n % 10 ^ e : ℕ) : ℚ) / 10 ^ e = (n : ℚ) / 10 ^ e := by
  have h10 : ((10 : ℚ) ^ e) ≠ 0 := by positivity
  have h : (n / 10 ^ e * 10 ^ e + n % 10 ^ e : ℕ) = n := by
    rw [Nat.mul_comm]
    exact Nat.div_add_mod n (10 ^ e)
  field_simp
  calc ((n / 10 ^ e : ℕ) : ℚ) * 10 ^ e + ((n % 10 ^ e : ℕ) : ℚ)
      = ((n / 10 ^ e * 10 ^ e + n % 10 ^ e : ℕ) : ℚ) := by push_cast; ring
    _ = (n : ℚ) := by rw [h]

theorem parseRat_append (e : ℕ) (q : ℚ) (he : 0 < e) (hq : decE e q)
    (r : List Char) (hr : headNot isDigitC r) :
    parseRat (ratChars e q ++ r) = some (q, r) := by
  obtain ⟨n, hn⟩ := hq
  have h10 : ((10 : ℚ) ^ e) ≠ 0 := by positivity
  have hqval : q = (n : ℚ) / 10 ^ e := by
    rw [eq_div_iff h10]
    exact hn
  have hnum : (q * 10 ^ e).num.toNat = n := by
    rw [hn]
    simp [Rat.num_natCast]
  unfold ratChars
  rw [hnum]
  have hmod : n % 10 ^ e < 10 ^ e := Nat.mod_lt n (Nat.pos_pow_of_pos e (by norm_num))
  have hshape : natChars (n / 10 ^ e) ++ '.' :: padNat e (n % 10 ^ e) ++ r =
      natChars (n / 10 ^ e) ++ ('.' :: (padNat e (n % 10 ^ e) ++ r)) := by
    simp [List.append_assoc]
  rw [hshape]
  unfold parseRat
  rw [parseNat_append (n / 10 ^ e) ('.' :: (padNat e (n % 10 ^ e) ++ r))
    (headNot_cons isDigitC '.' _ (by decide))]
  rw [Option.some_bind]
  simp only [if_pos rfl]
  rw [takeWhile_append_all isDigitC _ r (padNat_digits e (n % 10 ^ e)) hr,
    dropWhile_append_all isDigitC _ r (padNat_digits e (n % 10 ^ e)) hr]
  have hempty : (padNat e (n % 10 ^ e)).isEmpty = false := by
    simp [List.isEmpty_iff, padNat_ne_nil e (n % 10 ^ e)]
  simp only [hempty, Bool.false_eq_true, if_false]
  rw [digitsVal_padNat, padNat_length e (n % 10 ^ e) he hmod]
  rw [ratVal_eq e n, ← hqval]
  simp

theorem dropLit_append (xs r : List Char) : dropLit xs (xs ++ r) = some r := by
  induction xs with
  | nil => rfl
  | cons x t ih =>
    simp only [List.cons_append, dropLit, if_pos rfl]
    exact ih

theorem parseStr_append (s : String) (r : List Char)
    (hs : ∀ c ∈ s.data, ¬ c = '"') :
    parseStr (strChars s ++ r) = some (s, r) := by
  have hall : ∀ c ∈ s.data, (c != '"') = true := by
    intro c hc
    simpa using hs c hc
  have hhead : headNot (fun c' => c' != '"') ('"' :: r) :=
    headNot_cons _ '"' r (by decide)
  unfold strChars parseStr
  simp only [List.cons_append, List.append_assoc, List.singleton_append,
    List.nil_append, if_true]
  rw [dropWhile_append_all _ s.data ('"' :: r) hall hhead,
    takeWhile_append_all _ s.data ('"' :: r) hall hhead]
  simp

/-! #### Round-trip lemmas: objects and arrays -/

theorem parseCoin_append (co : CoinSummary) (r : List Char) (hv : validCoin co) :
    parseCoin (printCoin co ++ r) = some (co, r) := by
  obtain ⟨hstr, hr4, ht2, hlN2, hsN2⟩ := hv
  have hs : ∀ c ∈ co.c.data, ¬ c = '"' := fun c hc => (hstr c hc).1
  unfold printCoin parseCoin
  simp only [List.append_assoc, List.singleton_append]
  rw [show coinLit1 ++ (strChars co.c ++ (coinLit2 ++ (ratChars 4 co.r ++
      (coinLit3 ++ (ratChars 2 co.t ++ (coinLit4 ++ (ratChars 2 co.lN ++
      (coinLit5 ++ (ratChars 2 co.sN ++ (coinLit6 ++ (natChars co.lT ++
      (coinLit7 ++ (natChars co.sT ++ (rbr :: r)))))))))))))) =
    coinLit1 ++ (strChars co.c ++ (coinLit2 ++ (ratChars 4 co.r ++
      (coinLit3 ++ (ratChars 2 co.t ++ (coinLit4 ++ (ratChars 2 co.lN ++
      (coinLit5 ++ (ratChars 2 co.sN ++ (coinLit6 ++ (natChars co.lT ++
      (coinLit7 ++ (natChars co.sT ++ (rbr :: r)))))))))))))) from rfl]
  rw [dropLit_append, Option.some_bind]
  rw [parseStr_append co.c _ hs, Option.some_bind]
  rw [dropLit_append, Option.some_bind]
  rw [parseRat_append 4 co.r (by norm_num) hr4 _
    (headNot_append_of_head _ coinLit3 _ ',' (by decide) (by decide)),
    Option.some_bind]
  rw [dropLit_append, Option.some_bind]
  rw [parseRat_append 2 co.t (by norm_num) ht2 _
    (headNot_append_of_head _ coinLit4 _ ',' (by decide) (by decide)),
    Option.some_bind]
  rw [dropLit_append, Option.some_bind]
  rw [parseRat_append 2 co.lN (by norm_num) hlN2 _
    (headNot_append_of_head _ coinLit5 _ ',' (by decide) (by decide)),
    Option.some_bind]
  rw [dropLit_append, Option.some_bind]
  rw [parseRat_append 2 co.sN (by norm_num) hsN2 _
    (headNot_append_of_head _ coinLit6 _ ',' (by decide) (by decide)),
    Option.some_bind]
  rw [dropLit_append, Option.some_bind]
  rw [parseNat_append co.lT _
    (headNot_append_of_head _ coinLit7 _ ',' (by decide) (by decide)),
    Option.some_bind]
  rw [dropLit_append, Option.some_bind]
  rw [parseNat_append co.sT _ (headNot_cons _ rbr _ (by decide)), Option.some_bind]
  rw [show (rbr :: r) = [rbr] ++ r from rfl, dropLit_append, Option.map_some']

theorem parseCoins_print (l : List CoinSummary) (r : List Char)
    (hv : ∀ co ∈ l, validCoin co) (hr : r.head? ≠ some ',') :
    ∀ fuel, l.length ≤ fuel → l ≠ [] →
      parseCoins fuel (joinComma (l.map printCoin) ++ r) = some (l, r) := by
  induction l with
  | nil => exact fun fuel _ h => absurd rfl h
  | cons x xs ih =>
    intro fuel hfuel _
    cases fuel with
    | zero => simp at hfuel
    | succ fuel =>
      cases xs with
      | nil =>
        show parseCoins (fuel + 1) (printCoin x ++ r) = some ([x], r)
        unfold parseCoins
        rw [parseCoin_append x r (hv x (by simp)), Option.some_bind]
        cases r with
        | nil => rfl
        | cons c t =>
          have hc : ¬ c = ',' := fun h => hr (by simp [h])
          simp [hc]
      | cons y ys =>
        have hjoin : joinComma ((x :: y :: ys).map printCoin) ++ r =
            printCoin x ++ (',' :: (joinComma ((y :: ys).map printCoin) ++ r)) := by
          simp [joinComma]
        rw [hjoin]
        unfold parseCoins
        rw [parseCoin_append x _ (hv x (by simp)), Option.some_bind]
        have hrec := ih (fun co hco => hv co (List.mem_cons_of_mem x hco)) fuel
          (by simpa using hfuel) (by simp)
        simp only [List.map_cons] at hrec
        simp [hrec]

theorem printCoin_head (co : CoinSummary) (t : List Char) :
    (printCoin co ++ t).head? = some lbr := rfl

theorem joinComma_cons_printCoin (x : CoinSummary) (xs : List CoinSummary) :
    ∃ t, joinComma ((x :: xs).map printCoin) = printCoin x ++ t := by
  cases xs with
  | nil => exact ⟨[], by simp [joinComma]⟩
  | cons y ys => exact ⟨',' :: joinComma ((y :: ys).map printCoin), rfl⟩

theorem joinComma_le_length (L : List (List Char)) (h : ∀ x ∈ L, x ≠ []) :
    L.length ≤ (joinComma L).length := by
  induction L with
  | nil => simp
  | cons x xs ih =>
    cases xs with
    | nil =>
      have := h x (by simp)
      have hlen : 0 < x.length := List.length_pos.mpr this
      simpa [joinComma] using hlen
    | cons y ys =>
      have hx := h x (by simp)
      have hlen : 0 < x.length := List.length_pos.mpr hx
      have hrec := ih (fun z hz => h z (List.mem_cons_of_mem x hz))
      have hstep : joinComma (x :: y :: ys) = x ++ ',' :: joinComma (y :: ys) := rfl
      rw [hstep]
      simp only [List.length_cons, List.length_append] at hrec ⊢
      omega

theorem printCoin_ne_nil (co : CoinSummary) : printCoin co ≠ [] := by
  intro h
  have : (printCoin co).head? = some lbr := printCoin_head co [] ▸ by
    simpa using printCoin_head co []
  rw [h] at this
  cases this

theorem parseCoinList_print (l : List CoinSummary) (r : List Char)
    (hv : ∀ co ∈ l, validCoin co) :
    parseCoinList (printCoins l ++ r) = some (l, r) := by
  unfold printCoins parseCoinList
  have hshape : ('[' :: joinComma (l.map printCoin) ++ [']']) ++ r =
      ['['] ++ (joinComma (l.map printCoin) ++ (']' :: r)) := by
    simp
  rw [hshape, dropLit_append, Option.some_bind]
  cases l with
  | nil =>
    simp [joinComma]
  | cons x xs =>
    obtain ⟨t, ht⟩ := joinComma_cons_printCoin x xs
    have hhead : (joinComma ((x :: xs).map printCoin) ++ (']' :: r)).head? =
        some lbr := by
      rw [ht, List.append_assoc]
      exact printCoin_head x _
    rw [if_neg (by rw [hhead]; decide)]
    have hlen : (x :: xs).length ≤
        (joinComma ((x :: xs).map printCoin) ++ (']' :: r)).length + 1 := by
      have h1 := joinComma_le_length ((x :: xs).map printCoin)
        (by intro z hz
            obtain ⟨co, _, rfl⟩ := List.mem_map.mp hz
            exact printCoin_ne_nil co)
      simp only [List.length_map] at h1
      simp only [List.length_append]
      omega
    rw [parseCoins_print (x :: xs) (']' :: r) hv (by simp) _ hlen (by simp),
      Option.some_bind]
    rw [show (']' :: r) = [']'] ++ r from rfl, dropLit_append, Option.map_some']

/-! #### Round-trip lemmas: snapshots and the whole document -/

theorem parseSnap_append (s : Snapshot) (r : List Char) (hv : validSnap s) :
    parseSnap (printSnap s ++ r) = some (s, r) := by
  obtain ⟨hgR, htL, htS, hcoins⟩ := hv
  unfold printSnap parseSnap
  simp only [List.append_assoc, List.singleton_append]
  rw [dropLit_append, Option.some_bind]
  rw [parseNat_append s.ts _
    (headNot_append_of_head _ snapLit2 _ ',' (by decide) (by decide)),
    Option.some_bind]
  rw [dropLit_append, Option.some_bind]
  rw [parseRat_append 4 s.gR (by norm_num) hgR _
    (headNot_append_of_head _ snapLit3 _ ',' (by decide) (by decide)),
    Option.some_bind]
  rw [dropLit_append, Option.some_bind]
  rw [parseRat_append 2 s.tL (by norm_num) htL _
    (headNot_append_of_head _ snapLit4 _ ',' (by decide) (by decide)),
    Option.some_bind]
  rw [dropLit_append, Option.some_bind]
  rw [parseRat_append 2 s.tS (by norm_num) htS _
    (headNot_append_of_head _ snapLit5 _ ',' (by decide) (by decide)),
    Option.some_bind]
  rw [dropLit_append, Option.some_bind]
  rw [parseNat_append s.traders _
    (headNot_append_of_head _ snapLit6 _ ',' (by decide) (by decide)),
    Option.some_bind]
  rw [dropLit_append, Option.some_bind]
  rw [parseCoinList_print s.coins _ hcoins, Option.some_bind]
  rw [show (rbr :: r) = [rbr] ++ r from rfl, dropLit_append, Option.map_some']

theorem parseSnaps_print (r : List Char) (hr : r.head? ≠ some ',')
    (H : List Snapshot) (hv : ∀ s ∈ H, validSnap s) :
    ∀ fuel, H.length ≤ fuel → H ≠ [] →
      parseSnaps fuel (joinComma (H.map printSnap) ++ r) = some (H, r) := by
  induction H with
  | nil => exact fun fuel _ h => absurd rfl h
  | cons x xs ih =>
    intro fuel hfuel _
    cases fuel with
    | zero => simp at hfuel
    | succ fuel =>
      cases xs with
      | nil =>
        show parseSnaps (fuel + 1) (printSnap x ++ r) = some ([x], r)
        unfold parseSnaps
        rw [parseSnap_append x r (hv x (by simp)), Option.some_bind]
        cases r with
        | nil => rfl
        | cons c t =>
          have hc : ¬ c = ',' := fun h => hr (by simp [h])
          simp [hc]
      | cons y ys =>
        have hjoin : joinComma ((x :: y :: ys).map printSnap) ++ r =
            printSnap x ++ (',' :: (joinComma ((y :: ys).map printSnap) ++ r)) := by
          simp [joinComma]
        rw [hjoin]
        unfold parseSnaps
        rw [parseSnap_append x _ (hv x (by simp)), Option.some_bind]
        have hrec := ih (fun s hs => hv s (List.mem_cons_of_mem x hs)) fuel
          (by simpa using hfuel) (by simp)
        simp only [List.map_cons] at hrec
        simp [hrec]

theorem printSnap_head (s : Snapshot) (t : List Char) :
    (printSnap s ++ t).head? = some lbr := rfl

theorem printSnap_ne_nil (s : Snapshot) : printSnap s ≠ [] := by
  intro h
  have h2 : (printSnap s ++ []).head? = some lbr := printSnap_head s []
  rw [h] at h2
  cases h2

theorem joinComma_cons_printSnap (x : Snapshot) (xs : List Snapshot) :
    ∃ t, joinComma ((x :: xs).map printSnap) = printSnap x ++ t := by
  cases xs with
  | nil => exact ⟨[], by simp [joinComma]⟩
  | cons y ys => exact ⟨',' :: joinComma ((y :: ys).map printSnap), rfl⟩

/-- The full round trip: parsing back the exact document written for a
valid history recovers that history. -/
theorem parseHistory_print (H : List Snapshot) (hv : validHistory H) :
    parseHistory (printHistory H) = some H := by
  unfold printHistory parseHistory
  have hshape : ('[' :: joinComma (H.map printSnap) ++ [']']) =
      ['['] ++ (joinComma (H.map printSnap) ++ (']' :: [])) := by
    simp
  rw [hshape, dropLit_append, Option.some_bind]
  cases H with
  | nil =>
    simp [joinComma]
  | cons x xs =>
    obtain ⟨t, ht⟩ := joinComma_cons_printSnap x xs
    have hhead : (joinComma ((x :: xs).map printSnap) ++ (']' :: [])).head? =
        some lbr := by
      rw [ht, List.append_assoc]
      exact printSnap_head x _
    rw [if_neg (by rw [hhead]; decide)]
    have hlen : (x :: xs).length ≤
        (joinComma ((x :: xs).map printSnap) ++ (']' :: [])).length + 1 := by
      have h1 := joinComma_le_length ((x :: xs).map printSnap)
        (by intro z hz
            obtain ⟨s, _, rfl⟩ := List.mem_map.mp hz
            exact printSnap_ne_nil s)
      simp only [List.length_map] at h1
      simp only [List.length_append]
      omega
    rw [parseSnaps_print (']' :: []) (by simp) (x :: xs) hv _ hlen (by simp),
      Option.some_bind]
    simp [dropLit]

/-- Persisting then loading recovers the exact history. -/
theorem load_save (H : List Snapshot) (hv : validHistory H) (fs : FileState) :
    loadSnapshots (saveSnapshots H fs) = H := by
  show (parseHistory (String.mk (printHistory H)).data).getD [] = H
  have hdata : (String.mk (printHistory H)).data = printHistory H := rfl
  rw [hdata, parseHistory_print H hv]
  rfl

/-! ### Crash model of `save_snapshots`

`Path(DATA_FILE).write_text(data)` opens the data file in mode `"w"` -
which immediately truncates it - and then writes `data`.  There is no
temporary file and no rename.  The operation trace and the disk states
reachable if the process crashes between operations are made explicit. -/

inductive FsOp where
  /-- opening the target in mode `"w"` truncates it to empty -/
  | truncate
  /-- the data is written to the (already truncated) target -/
  | write (s : List Char)
  /-- writing a temporary file (not used by `save_snapshots`) -/
  | writeTemp (s : List Char)
  /-- atomically renaming the temporary file over the target
  (not used by `save_snapshots`) -/
  | rename
deriving DecidableEq

/-- Contents of the target file and of a temporary file (`none` =
absent). -/
structure DiskState where
  main : Option (List Char)
  temp : Option (List Char)
deriving DecidableEq

def applyOp (st : DiskState) : FsOp → DiskState
  | .truncate => { st with main := some [] }
  | .write s => { st with main := some ((st.main.getD []) ++ s) }
  | .writeTemp s => { st with temp := some s }
  | .rename => { main := st.temp, temp := none }

/-- The operation trace of `save_snapshots(snaps)`:
`Path(DATA_FILE).write_text(json.dumps(snaps, separators=(",", ":")))`. -/
def saveTrace (H : List Snapshot) : List FsOp :=
  [.truncate, .write (printHistory H)]

/-- Every disk state reachable if the process crashes at an operation
boundary during the trace (including before the first and after the
last operation). -/
def crashStates (ops : List FsOp) (st : DiskState) : List DiskState :=
  (List.range (ops.length + 1)).map (fun k => (ops.take k).foldl applyOp st)

/-! ### Interleaving model of concurrent `take_snapshot` runs

`take_snapshot` is called directly both from the cron thread
(`cron_loop`) and from the HTTP handler (`/api/snapshot/now`); the code
contains no lock, so the two calls can interleave freely.  With respect
to the snapshot store each run performs two steps: `load_snapshots()`
(read) and then append + trim + `save_snapshots` (write).  A schedule
lists which thread moves at each instant (`true` = thread 1). -/

inductive RunPC where
  | start
  | loaded (snaps : List Snapshot)
  | done
deriving DecidableEq

structure SchedState where
  store : List Snapshot
  pc1 : RunPC
  pc2 : RunPC
deriving DecidableEq

/-- One step of a single `take_snapshot` run: first read the store, then
write back the loaded copy with the new snapshot appended (and trimmed
to `MAX_SNAPS`). -/
def runStep (snap : Snapshot) (store : List Snapshot) (pc : RunPC) :
    List Snapshot × RunPC :=
  match pc with
  | .start => (store, .loaded store)
  | .loaded snaps => (appendTrim MAX_SNAPS snaps snap, .done)
  | .done => (store, .done)

def schedStep (s1 s2 : Snapshot) (st : SchedState) (t : Bool) : SchedState :=
  if t then
    let r := runStep s1 st.store st.pc1
    { store := r.1, pc1 := r.2, pc2 := st.pc2 }
  else
    let r := runStep s2 st.store st.pc2
    { store := r.1, pc1 := st.pc1, pc2 := r.2 }

/-- Run a schedule from an initial store, both runs not yet started. -/
def runSched (s1 s2 : Snapshot) (init : List Snapshot) (sched : List Bool) :
    SchedState :=
  sched.foldl (schedStep s1 s2) ⟨init, .start, .start⟩

/-- Both runs finished. -/
def completed (st : SchedState) : Prop := st.pc1 = .done ∧ st.pc2 = .done

instance (st : SchedState) : Decidable (completed st) :=
  inferInstanceAs (Decidable (_ ∧ _))

/-- A simple snapshot used for concrete instances. -/
def tSnap (k : ℕ) : Snapshot := ⟨k, 0, 0, 0, 0, []⟩

/-! ## The claims -/

/-- C1: for every input batch, `globalRatio` is
`round(T_long / (T_long + T_short), 4)` when `T_long + T_short > 0` and
`0` when the combined total is `0`; an empty trader list produces the
snapshot with no assets, global ratio `0` and `tradersLoaded = 0`. -/
theorem c1_global_ratio (now : ℕ) (rs : List FetchResult) :
    (0 < sumLong rs + sumShort rs →
      (takeSnapshot now rs).gR =
        pyRound 4 (sumLong rs / (sumLong rs + sumShort rs))) ∧
    (sumLong rs + sumShort rs = 0 → (takeSnapshot now rs).gR = 0) ∧
    (takeSnapshot now []).coins = [] ∧ (takeSnapshot now []).gR = 0 ∧
    (takeSnapshot now []).traders = 0 := by
  have hTL := aggregate_totalLong rs
  have hTS := aggregate_totalShort rs
  refine ⟨?_, ?_, ?_, ?_, ?_⟩
  · intro h
    simp only [takeSnapshot, hTL, hTS]
    rw [if_pos h]
  · intro h
    simp only [takeSnapshot, hTL, hTS]
    rw [if_neg (by rw [h]; exact lt_irrefl 0)]
  · simp [takeSnapshot, aggregate, initAggState, finalizeCoins, sortCoins,
      List.insertionSort]
  · simp [takeSnapshot, aggregate, initAggState]
  · simp [takeSnapshot, aggregate, initAggState]

def rsC1 : List FetchResult := [.ok [⟨"BTC", 1, 100⟩]]

theorem c1_global_ratio_witness :
    (0 < sumLong rsC1 + sumShort rsC1 ∧
      (takeSnapshot 0 rsC1).gR =
        pyRound 4 (sumLong rsC1 / (sumLong rsC1 + sumShort rsC1))) ∧
    (sumLong [] + sumShort [] = 0 ∧ (takeSnapshot 0 []).gR = 0) := by
  have hA : 0 < sumLong rsC1 + sumShort rsC1 := by
    norm_num [sumLong, sumShort, recsSumLong, recsSumShort, okRecords, rsC1,
      isLongRec, isShortRec]
  have hB : sumLong [] + sumShort [] = 0 := by
    norm_num [sumLong, sumShort, recsSumLong, recsSumShort, okRecords]
  exact ⟨⟨hA, (c1_global_ratio 0 rsC1).1 hA⟩, ⟨hB, (c1_global_ratio 0 []).2.1 hB⟩⟩

/-- C3: one append keeps the history within the bound `m`, and repeated
appends from the empty history keep exactly the most recent `m`
snapshots in order (so appending `S1..S(m+5)` leaves `S6..S(m+5)`). -/
theorem c3_retention (m : ℕ) (hm : 0 < m) :
    (∀ h s, (appendTrim m h s).length ≤ m) ∧
    (∀ L : List Snapshot, L.foldl (appendTrim m) [] = L.drop (L.length - m)) :=
  ⟨fun h s => appendTrim_length_le m hm h s, fun L => foldl_appendTrim m hm L⟩

theorem c3_retention_witness : 0 < 2 ∧
    [tSnap 1, tSnap 2, tSnap 3, tSnap 4, tSnap 5, tSnap 6,
      tSnap 7].foldl (appendTrim 2) [] = [tSnap 6, tSnap 7] := by
  refine ⟨by decide, ?_⟩
  rw [(c3_retention 2 (by decide)).2
    [tSnap 1, tSnap 2, tSnap 3, tSnap 4, tSnap 5, tSnap 6, tSnap 7]]
  rfl

/-- C4: persisting a valid history and loading it back yields the same
history, with ordering preserved (`load(persist(H)) = H`), for any
prior state of the data file, including the empty history. -/
theorem c4_round_trip (H : List Snapshot) (hv : validHistory H)
    (fs : FileState) : loadSnapshots (saveSnapshots H fs) = H :=
  load_save H hv fs

def hC4 : List Snapshot :=
  [⟨3, 1/2, 1, 1, 2, [⟨"BTC", 1/2, 2, 1, 1, 1, 1⟩]⟩]

theorem c4_round_trip_witness :
    (validHistory [] ∧ loadSnapshots (saveSnapshots [] .missing) = []) ∧
    (validHistory hC4 ∧ loadSnapshots (saveSnapshots hC4 .missing) = hC4) := by
  have hve : validHistory [] := by
    intro s hs
    cases hs
  have hv : validHistory hC4 := by
    intro s hs
    simp only [hC4, List.mem_singleton] at hs
    subst hs
    refine ⟨⟨5000, by norm_num⟩, ⟨100, by norm_num⟩, ⟨100, by norm_num⟩, ?_⟩
    intro co hco
    simp only [List.mem_singleton] at hco
    subst hco
    refine ⟨?_, ⟨5000, by norm_num⟩, ⟨200, by norm_num⟩,
      ⟨100, by norm_num⟩, ⟨100, by norm_num⟩⟩
    intro ch hch
    fin_cases hch <;> exact ⟨by decide, by decide, by decide⟩
  exact ⟨⟨hve, c4_round_trip [] hve .missing⟩, ⟨hv, c4_round_trip hC4 hv .missing⟩⟩

/-- C5 (amended): dropping a trader whose fetch failed changes nothing
in the produced snapshot: all per-asset totals, the global totals and
also `tradersLoaded` are identical (a `FetchError` neither increments
the loaded count nor aborts the batch).  The original claim's
"tradersLoaded differs by 1" is refuted by
`c5_traders_count_counterexample`. -/
theorem c5_fetch_error_skipped (now : ℕ) (xs ys : List FetchResult) :
    takeSnapshot now (xs ++ FetchResult.err :: ys) =
      takeSnapshot now (xs ++ ys) :=
  takeSnapshot_err_skip now xs ys

def trA : FetchResult := .ok [⟨"BTC", 1, 1000⟩]
def trC : FetchResult := .ok [⟨"ETH", -1, 500⟩]

/-- C5, counterexample to the claim as stated: with `[A_ok, B_fail,
C_ok]` versus `[A_ok, C_ok]` the `traders` field is 2 in both runs - it
does not differ by 1. -/
theorem c5_traders_count_counterexample :
    (takeSnapshot 0 [trA, .err, trC]).traders = 2 ∧
    (takeSnapshot 0 [trA, trC]).traders = 2 ∧
    ¬ ((takeSnapshot 0 [trA, .err, trC]).traders -
          (takeSnapshot 0 [trA, trC]).traders = 1 ∨
        (takeSnapshot 0 [trA, trC]).traders -
          (takeSnapshot 0 [trA, .err, trC]).traders = 1) := by
  refine ⟨rfl, rfl, ?_⟩
  decide

/-- C8: `load` never fails the caller: a missing file yields the empty
history, and so does any file whose contents fail to parse. -/
theorem c8_load_total (s : String) :
    loadSnapshots FileState.missing = [] ∧
    (parseHistory s.data = none → loadSnapshots (FileState.content s) = []) := by
  refine ⟨rfl, ?_⟩
  intro h
  simp [loadSnapshots, h]

theorem c8_load_total_witness :
    parseHistory ("garbage").data = none ∧
    loadSnapshots (FileState.content "garbage") = [] :=
  ⟨by decide, (c8_load_total "garbage").2 (by decide)⟩

/-- C10: a record with non-zero notional and `szi = 0` is accumulated on
the short side - the asset's short notional and short trader count and
the global short total all grow - while the long side is untouched. -/
theorem c10_zero_size_short (st : CoreState) (p : PositionRecord)
    (h0 : p.positionValue ≠ 0) (hsz : p.szi = 0) :
    (corePos st p).totalShort = st.totalShort + p.positionValue ∧
    (corePos st p).totalLong = st.totalLong ∧
    findAgg p.coin (corePos st p).coinData =
      some { (findAgg p.coin st.coinData).getD zeroAgg with
        sN := ((findAgg p.coin st.coinData).getD zeroAgg).sN + p.positionValue,
        sT := ((findAgg p.coin st.coinData).getD zeroAgg).sT + 1 } := by
  have hns : ¬ 0 < p.szi := by
    rw [hsz]
    exact lt_irrefl 0
  refine ⟨by simp [corePos, h0, hns], by simp [corePos, h0, hns], ?_⟩
  simp [corePos, h0, hns, findAgg_updateAgg]

/-- C2 (amended): every asset in a finalized snapshot has accumulated
notionals with `L + S ≠ 0`, ratio `round(L/(L+S), 4)`, and its
`lT`/`sT` counters equal the number of included (non-zero-notional)
records on that side - one per record, not one per distinct trader; the
original "distinct traders" reading is refuted by
`c2_distinct_traders_counterexample`. -/
theorem c2_asset_stats (now : ℕ) (rs : List FetchResult) :
    ∀ s ∈ (takeSnapshot now rs).coins,
      assetLong rs s.c + assetShort rs s.c ≠ 0 ∧
      s.r = pyRound 4
        (assetLong rs s.c / (assetLong rs s.c + assetShort rs s.c)) ∧
      s.lT = assetLongRecords rs s.c ∧
      s.sT = assetShortRecords rs s.c := by
  intro s hs
  have hs1 : s ∈ sortCoins (finalizeCoins (aggregate rs).core.coinData) := by
    have hsub :=
      List.take_sublist 60 (sortCoins (finalizeCoins (aggregate rs).core.coinData))
    exact hsub.subset hs
  have hs2 : s ∈ finalizeCoins (aggregate rs).core.coinData :=
    (sortCoins_perm _).subset hs1
  obtain ⟨kd, hkd, hsome⟩ := List.mem_filterMap.mp hs2
  obtain ⟨k, d⟩ := kd
  simp only at hsome
  by_cases htot : d.lN + d.sN = 0
  · rw [if_pos htot] at hsome
    cases hsome
  · rw [if_neg htot] at hsome
    have hseq := Option.some.inj hsome
    have hcore : (aggregate rs).core =
        (okRecords rs).foldl corePos initAggState.core := by
      rw [aggregate, foldl_processTrader_core]
    have hnd : (dictKeys (aggregate rs).core.coinData).Nodup := by
      rw [hcore]
      exact nodup_dictKeys_foldl_corePos _ _ (by simp [initAggState, dictKeys])
    have hfind : findAgg k (aggregate rs).core.coinData = some d :=
      findAgg_of_mem _ k d hkd hnd
    have hkey : findAgg k (aggregate rs).core.coinData =
        (okRecords rs).foldl (keyStep k) none := by
      rw [hcore, findAgg_foldl_corePos]
      rfl
    have hd : d =
        { lN := recsAssetLong k (okRecords rs),
          sN := recsAssetShort k (okRecords rs),
          lT := recsAssetLongCnt k (okRecords rs),
          sT := recsAssetShortCnt k (okRecords rs) } := by
      have hg := foldl_keyStep_getD k (okRecords rs) none
      rw [← hkey, hfind] at hg
      simpa [zeroAgg] using hg
    rw [← hseq]
    rw [hd] at htot
    refine ⟨htot, ?_, ?_, ?_⟩
    · rw [hd]
      rfl
    · rw [hd]
      rfl
    · rw [hd]
      rfl

def rsC2 : List FetchResult := [.ok [⟨"BTC", 1, 100⟩]]

theorem c2_asset_stats_witness :
    ∃ s ∈ (takeSnapshot 0 rsC2).coins,
      assetLong rsC2 s.c + assetShort rsC2 s.c ≠ 0 ∧
      s.r = pyRound 4
        (assetLong rsC2 s.c / (assetLong rsC2 s.c + assetShort rsC2 s.c)) ∧
      s.lT = assetLongRecords rsC2 s.c ∧
      s.sT = assetShortRecords rsC2 s.c := by
  have hmap : ((takeSnapshot 0 rsC2).coins).map (fun s => (s.c, s.lT)) =
      [("BTC", 1)] := by
    norm_num [takeSnapshot, aggregate, initAggState, processTrader, corePos,
      updateAgg, zeroAgg, finalizeCoins, sortCoins, List.insertionSort,
      List.orderedInsert, List.filterMap_cons, rsC2]
  rcases hcl : (takeSnapshot 0 rsC2).coins with _ | ⟨s₀, rest⟩
  · rw [hcl] at hmap
    cases hmap
  · exact ⟨s₀, List.mem_cons_self s₀ rest,
      c2_asset_stats 0 rsC2 s₀ (by rw [hcl]; exact List.mem_cons_self s₀ rest)⟩

def rsC2x : List FetchResult := [.ok [⟨"BTC", 1, 100⟩, ⟨"BTC", 2, 100⟩]]

/-- C2, counterexample to the claim as stated: one trader reporting two
long BTC records yields `longTraderCount = 2`, while only 1 distinct
trader contributed a long record - the counter counts records, not
distinct traders. -/
theorem c2_distinct_traders_counterexample :
    ¬ (∀ s ∈ (takeSnapshot 0 rsC2x).coins,
        s.lT = distinctLongTraders rsC2x s.c) := by
  intro h
  have hmap : ((takeSnapshot 0 rsC2x).coins).map (fun s => (s.c, s.lT)) =
      [("BTC", 2)] := by
    norm_num [takeSnapshot, aggregate, initAggState, processTrader, corePos,
      updateAgg, zeroAgg, finalizeCoins, sortCoins, List.insertionSort,
      List.orderedInsert, List.filterMap_cons, rsC2x]
  rcases hcl : (takeSnapshot 0 rsC2x).coins with _ | ⟨s₀, rest⟩
  · rw [hcl] at hmap
    cases hmap
  · rw [hcl] at hmap
    simp only [List.map_cons, List.cons.injEq, Prod.mk.injEq] at hmap
    have hlT := h s₀ (by rw [hcl]; exact List.mem_cons_self s₀ rest)
    rw [hmap.1.1, hmap.1.2] at hlT
    rw [show distinctLongTraders rsC2x "BTC" = 1 from by decide] at hlT
    cases hlT

/-- C6: the `coins` list of every snapshot is `totalNotional`-descending
(`coinGE`), holds at most 60 entries, is the 60-prefix of the stable
sort of the finalized list, and the sort keeps equal-key entries in
discovery order (the filter at every key value is unchanged). -/
theorem c6_sorted_capped (now : ℕ) (rs : List FetchResult) :
    ((takeSnapshot now rs).coins).Sorted coinGE ∧
    (takeSnapshot now rs).coins.length ≤ 60 ∧
    (takeSnapshot now rs).coins =
      (sortCoins (finalizeCoins (aggregate rs).core.coinData)).take 60 ∧
    ∀ k : ℚ,
      (sortCoins (finalizeCoins (aggregate rs).core.coinData)).filter
          (fun x => decide (x.t = k)) =
        (finalizeCoins (aggregate rs).core.coinData).filter
          (fun x => decide (x.t = k)) := by
  refine ⟨?_, ?_, rfl, fun k => sortCoins_filter_key k _⟩
  · show ((sortCoins (finalizeCoins (aggregate rs).core.coinData)).take 60).Sorted
      coinGE
    exact List.Pairwise.sublist (List.take_sublist 60 _) (sortCoins_sorted _)
  · show ((sortCoins (finalizeCoins (aggregate rs).core.coinData)).take 60).length
      ≤ 60
    exact List.length_take_le 60 _

/-- C7, counterexample to the claim as stated: `save_snapshots` is not
an atomic replace - crashing right after the truncating open leaves an
empty file, which is neither the prior content nor the new document. -/
theorem c7_not_atomic_counterexample :
    ¬ (∀ st' ∈ crashStates (saveTrace []) ⟨some ['x'], none⟩,
        st'.main = some ['x'] ∨ st'.main = some (printHistory [])) := by
  decide

/-- C7 (amended): `save_snapshots` writes the full document with a
single in-place truncate-then-write and no temporary file or rename;
after it completes the file holds the complete serialization, but the
crash state between the two steps is a truncated (empty) file. -/
theorem c7_inplace_write (st : DiskState) (H : List Snapshot) :
    ((saveTrace H).foldl applyOp st).main = some (printHistory H) ∧
    FsOp.rename ∉ saveTrace H ∧
    crashStates (saveTrace H) st =
      [st, { st with main := some [] },
        { st with main := some (printHistory H) }] := by
  refine ⟨by simp [saveTrace, applyOp], by simp [saveTrace], ?_⟩
  show (List.range 3).map
      (fun k => ((saveTrace H).take k).foldl applyOp st) = _
  rw [show (List.range 3) = [0, 1, 2] from by decide]
  simp [saveTrace, applyOp]

/-- C9, counterexample to the claim as stated: the schedule
load₁,load₂,save₁,save₂ completes both runs, yet its final store differs
from the outcome of either serial order - the two `take_snapshot`
executions did overlap and interleave their reads and writes. -/
theorem c9_overlap_counterexample :
    completed (runSched (tSnap 1) (tSnap 2) [] [true, false, true, false]) ∧
    (runSched (tSnap 1) (tSnap 2) [] [true, false, true, false]).store =
      [tSnap 2] ∧
    appendTrim MAX_SNAPS (appendTrim MAX_SNAPS [] (tSnap 1)) (tSnap 2) =
      [tSnap 1, tSnap 2] ∧
    appendTrim MAX_SNAPS (appendTrim MAX_SNAPS [] (tSnap 2)) (tSnap 1) =
      [tSnap 2, tSnap 1] ∧
    ([tSnap 2] : List Snapshot) ≠ [tSnap 1, tSnap 2] ∧
    ([tSnap 2] : List Snapshot) ≠ [tSnap 2, tSnap 1] := by
  decide

/-- C9 (amended): nothing serializes the two callers of
`take_snapshot`: the interleaving load₁,load₂,save₁,save₂ is a possible
execution (no lock blocks it), both runs complete, and the store ends
as if only the second run happened - the first run's snapshot is lost. -/
theorem c9_lost_update (s1 s2 : Snapshot) (init : List Snapshot) :
    completed (runSched s1 s2 init [true, false, true, false]) ∧
    (runSched s1 s2 init [true, false, true, false]).store =
      appendTrim MAX_SNAPS init s2 :=
  ⟨⟨rfl, rfl⟩, rfl⟩

theorem c10_zero_size_short_witness :
    ((100 : ℚ) ≠ 0 ∧ (0 : ℚ) = 0) ∧
    (corePos ⟨[], 0, 0⟩ ⟨"BTC", 0, 100⟩).totalShort = 0 + 100 ∧
    (corePos ⟨[], 0, 0⟩ ⟨"BTC", 0, 100⟩).totalLong = 0 ∧
    findAgg "BTC" (corePos ⟨[], 0, 0⟩ ⟨"BTC", 0, 100⟩).coinData =
      some { (findAgg "BTC" ([] : List (String × CoinAgg))).getD zeroAgg with
        sN := ((findAgg "BTC" ([] : List (String × CoinAgg))).getD zeroAgg).sN
          + 100,
        sT := ((findAgg "BTC" ([] : List (String × CoinAgg))).getD zeroAgg).sT
          + 1 } :=
  ⟨⟨by decide, rfl⟩, c10_zero_size_short ⟨[], 0, 0⟩ ⟨"BTC", 0, 100⟩
    (by decide) rfl⟩

end Surveil
